import Mathlib

set_option maxRecDepth 100000

/-!
Verification development for a byte-pair-encoding (BPE) subword tokenizer
written in Rust (a single source file defining `BPETokenizer` with
`train`, `encode`, `encode_no_special`, `tokenize_with_bpe`, `decode`,
`find_freq_pair`, `replace_pair`, `save_vocab_and_merges`,
`load_vocab_and_merges`, `load_vocab_and_merges_from_openai`).

Shallow embedding conventions:
* Rust `String` values are modelled as `List Char`.
* Rust `HashMap` values are modelled as association lists
  (`List (key × value)`); `insert` replaces an existing binding in place
  or appends a fresh one, and lookup returns the first binding, which
  matches `HashMap` semantics key for key.
* `HashMap`/`HashSet` iteration order is unspecified in Rust (randomized
  per process).  Wherever the source iterates a map or set, the model
  fixes one canonical order (noted at the definition); the one claim that
  is sensitive to this order (deterministic tie-breaking in training) is
  analysed through an order-parameterised helper.
* Fallible Rust code returning `io::Result` is modelled with
  `Except ErrKind`; the source constructs every one of its errors with
  `io::ErrorKind::InvalidData`, so error messages are elided and only the
  kind is kept.  A Rust panic (out-of-bounds map indexing) is modelled as
  a distinguished failure constructor where it can occur.
* Loops whose termination metric is a decreasing list length are modelled
  with an explicit fuel argument that provably dominates the number of
  iterations, keeping every definition kernel-computable.
-/

namespace BPE

/-- Error kinds used by the tokenizer's io::Result values.  The source
only ever constructs InvalidData; NotFound and InvalidInput appear in the
specification's vocabulary and are included for stating claims. -/
inductive ErrKind where
  | invalidData
  | notFound
  | invalidInput
deriving DecidableEq, Repr

/-- Association-list insert modelling HashMap::insert: replaces the first
binding of the key if present, otherwise appends a new binding. -/
def upsert {α β : Type} [DecidableEq α] : List (α × β) → α → β → List (α × β)
  | [], k, v => [(k, v)]
  | (k', v') :: t, k, v =>
      if k' = k then (k, v) :: t else (k', v') :: upsert t k v

/-- Association-list lookup modelling HashMap::get: first binding wins. -/
def alookup {α β : Type} [DecidableEq α] : List (α × β) → α → Option β
  | [], _ => none
  | (k', v') :: t, k => if k' = k then some v' else alookup t k

/-- Tokenizer state, mirroring the fields of the Rust BPETokenizer
struct field for field. -/
structure Tok where
  vocab : List (Nat × List Char)
  inverse_vocab : List (List Char × Nat)
  bpe_merges : List ((Nat × Nat) × Nat)
  bpe_ranks : List ((List Char × List Char) × Nat)
  special_tokens : List (List Char)
deriving DecidableEq, Repr

/-- BPETokenizer::new: every field empty. -/
def newTok : Tok := ⟨[], [], [], [], []⟩

/-- The space-marker character the source writes as a literal in
replace, format and starts_with calls. -/
def gMark : Char := 'Ġ'

/-- Newline character. -/
def nlChar : Char := '\n'

/-- Space character. -/
def spChar : Char := ' '

/-- Vocabulary lookup by id (vocab side). -/
def lookupV (st : Tok) (i : Nat) : Option (List Char) := alookup st.vocab i

/-- Vocabulary lookup by string (inverse side). -/
def lookupInv (st : Tok) (s : List Char) : Option Nat := alookup st.inverse_vocab s

/-- Merge-table lookup. -/
def lookupM (st : Tok) (p : Nat × Nat) : Option Nat := alookup st.bpe_merges p

/-- Rank-table lookup. -/
def lookupR (st : Tok) (p : List Char × List Char) : Option Nat := alookup st.bpe_ranks p

/-- String of an id; the source indexes vocab[&id] at places where the id
is known to be present, so a missing id defaults to the empty string in
the model (the claims under study never reach that default). -/
def vstr (st : Tok) (i : Nat) : List Char := (lookupV st i).getD []

/-- Unicode White_Space test, the semantics of Rust char::is_whitespace. -/
def isWS (c : Char) : Bool :=
  let n := c.toNat
  (9 ≤ n && n ≤ 13) || n = 32 || n = 133 || n = 160 || n = 5760 ||
  (8192 ≤ n && n ≤ 8202) || n = 8232 || n = 8233 || n = 8239 || n = 8287 || n = 12288

/-- The 128 ASCII characters in code-point order, the canonical iteration
order chosen for the seeded character set (the Rust HashSet order is
arbitrary; ids only shift under another order, nothing else changes). -/
def asciiChars : List Char := (List.range 128).map Char.ofNat

/-- Deduplicate keeping first occurrences. -/
def dedupF : List Char → List Char
  | [] => []
  | c :: t => c :: (dedupF t).filter (fun x => x ≠ c)

/-- The processed training text: every space replaced by the marker
(Rust text.replace of a space with the marker, which is exactly a
character map since both pattern and replacement are single characters). -/
def processText (text : List Char) : List Char :=
  text.map (fun c => if c = spChar then gMark else c)

/-- Sequentially numbered vocabulary entries for a character list,
starting at the given id. -/
def seedEntries (start : Nat) : List Char → List (Nat × List Char)
  | [] => []
  | c :: t => (start, [c]) :: seedEntries (start + 1) t

/-- One step of the special-token seeding loop: insert the token with the
next free id unless it is already present. -/
def addSpecial (acc : Tok × Nat) (tokStr : List Char) : Tok × Nat :=
  if lookupInv acc.1 tokStr = none then
    ({ acc.1 with vocab := acc.1.vocab ++ [(acc.2, tokStr)]
                  inverse_vocab := acc.1.inverse_vocab ++ [(tokStr, acc.2)] }, acc.2 + 1)
  else acc

/-- Seeding phase of train: insert every character of the processed text
together with all of ASCII 0-127 (canonical order: ASCII in code-point
order, then non-ASCII corpus characters in first-occurrence order), then
the marker if absent, then each special token if absent.  All keys are
fresh, so each insert is an append.  Returns the seeded state and the
next free id. -/
def seedState (text : List Char) (specials : List (List Char)) : Tok × Nat :=
  let processed := processText text
  let uchars := asciiChars ++ dedupF (processed.filter (fun c => ¬ c.toNat < 128))
  let base : Tok :=
    { vocab := seedEntries 0 uchars
      inverse_vocab := (seedEntries 0 uchars).map (fun p => (p.2, p.1))
      bpe_merges := []
      bpe_ranks := []
      special_tokens := specials }
  let n0 := uchars.length
  let st1 : Tok × Nat :=
    if lookupInv base [gMark] = none then
      ({ base with vocab := base.vocab ++ [(n0, [gMark])]
                   inverse_vocab := base.inverse_vocab ++ [([gMark], n0)] }, n0 + 1)
    else (base, n0)
  specials.foldl addSpecial st1

/-- Conversion of the processed text to seed token ids (the per-character
lookup loop of train; its error branch is unreachable because every
character was just seeded, but it is modelled faithfully). -/
def textToIds (st : Tok) : List Char → Except ErrKind (List Nat)
  | [] => .ok []
  | c :: t =>
      match lookupInv st [c] with
      | some i => do
          let rest ← textToIds st t
          .ok (i :: rest)
      | none => .error .invalidData

/-- Adjacent-pair frequency table of find_freq_pair, excluding pairs with
a special token on either side; built in first-occurrence order (the Rust
HashMap holds the same multiset in an arbitrary iteration order). -/
def pairCounts (st : Tok) : List Nat → List ((Nat × Nat) × Nat)
  | a :: b :: rest =>
      let tail := pairCounts st (b :: rest)
      if st.special_tokens.contains (vstr st a) || st.special_tokens.contains (vstr st b) then
        tail
      else
        match alookup tail (a, b) with
        | some n => upsert tail (a, b) (n + 1)
        | none => upsert tail (a, b) 1
  | _ => []

/-- Rust Iterator::max_by_key over an iteration sequence: the LAST
element attaining the maximal key is returned. -/
def maxByKeyLast {α : Type} : List (α × Nat) → Option (α × Nat)
  | [] => none
  | (a, n) :: t =>
      match maxByKeyLast t with
      | none => some (a, n)
      | some (b, m) => if m ≥ n then some (b, m) else some (a, n)

/-- find_freq_pair: the most frequent eligible adjacent pair, ties broken
by the (arbitrary) map iteration order; the model fixes the
first-occurrence order built by pairCounts. -/
def find_freq_pair (st : Tok) (ids : List Nat) : Option (Nat × Nat) :=
  (maxByKeyLast (pairCounts st ids)).map Prod.fst

/-- replace_pair: one left-to-right pass replacing every non-overlapping
occurrence of the pair by the new id. -/
def replace_pair : List Nat → Nat × Nat → Nat → List Nat
  | a :: b :: rest, p, newId =>
      if a = p.1 ∧ b = p.2 then newId :: replace_pair rest p newId
      else a :: replace_pair (b :: rest) p newId
  | l, _, _ => l

/-- The merge-learning loop of train.  Each executed iteration grows the
vocabulary by exactly one entry and requires its size to be below the
target, so vocabSize + 1 units of fuel dominate the iteration count. -/
def trainLoop (st : Tok) (nextId vocabSize : Nat) (ids : List Nat) : Nat → Tok
  | 0 => st
  | fuel + 1 =>
      if st.vocab.length < vocabSize ∧ ids ≠ [] then
        match find_freq_pair st ids with
        | none => st
        | some (p0, p1) =>
            let merged := vstr st p0 ++ vstr st p1
            let st' : Tok :=
              { st with
                vocab := upsert st.vocab nextId merged
                inverse_vocab := upsert st.inverse_vocab merged nextId
                bpe_merges := upsert st.bpe_merges (p0, p1) nextId }
            trainLoop st' (nextId + 1) vocabSize (replace_pair ids (p0, p1) nextId) fuel
      else st

/-- train: seed the vocabulary, convert the processed text to ids, then
learn merges while the vocabulary is below the target size. -/
def train (text : List Char) (vocabSize : Nat) (specials : List (List Char)) :
    Except ErrKind Tok := do
  let ids ← textToIds (seedState text specials).1 (processText text)
  .ok (trainLoop (seedState text specials).1 (seedState text specials).2 vocabSize ids
        (vocabSize + 1))

/-! Encoding -/

/-- Rust str::split on a newline: substrings between newlines, keeping
empty pieces, one piece more than there are newlines. -/
def splitNl : List Char → List (List Char)
  | [] => [[]]
  | c :: t =>
      if c = nlChar then [] :: splitNl t
      else
        match splitNl t with
        | [] => [[c]]
        | l :: ls => (c :: l) :: ls

/-- Accumulator-style worker for str::split_whitespace. -/
def splitWSAux : List Char → List Char → List (List Char)
  | [], acc => if acc = [] then [] else [acc.reverse]
  | c :: t, acc =>
      if isWS c then
        if acc = [] then splitWSAux t [] else acc.reverse :: splitWSAux t []
      else splitWSAux t (c :: acc)

/-- Rust str::split_whitespace: maximal runs of non-whitespace characters. -/
def splitWS (l : List Char) : List (List Char) := splitWSAux l []

/-- The per-line token strings of encode_no_special: the first word of
the first line is emitted as-is, every other word receives the marker
prefix. -/
def lineTokens (i : Nat) : List (List Char) → List (List Char)
  | [] => []
  | w :: rest => (if i = 0 then w else gMark :: w) :: rest.map (fun v => gMark :: v)

/-- All token strings of encode_no_special: lines are separated by a
literal newline token, then each line contributes its word tokens. -/
def tokensOfLines (i : Nat) : List (List Char) → List (List Char)
  | [] => []
  | l :: ls =>
      (if i > 0 then [[nlChar]] else []) ++ lineTokens i (splitWS l) ++
        tokensOfLines (i + 1) ls

/-- Character-level seeding of tokenize_with_bpe: each character is
looked up as a single-character string, a missing character is an
InvalidData error. -/
def charIds (st : Tok) : List Char → Except ErrKind (List Nat)
  | [] => .ok []
  | c :: t =>
      match lookupInv st [c] with
      | some i => do
          let rest ← charIds st t
          .ok (i :: rest)
      | none => .error .invalidData

/-- One left-to-right pass of the id-pair merge strategy, also reporting
whether any merge fired. -/
def bpePass (st : Tok) : List Nat → List Nat × Bool
  | a :: b :: rest =>
      match lookupM st (a, b) with
      | some m => (m :: (bpePass st rest).1, true)
      | none => (a :: (bpePass st (b :: rest)).1, (bpePass st (b :: rest)).2)
  | l => (l, false)

/-- The id-pair strategy loop: repeat full passes until a pass fires no
merge or at most one id remains.  A firing pass strictly shortens the
list, so length + 1 units of fuel dominate the iteration count. -/
def bpeLoop (st : Tok) : Nat → List Nat → List Nat
  | 0, ids => ids
  | fuel + 1, ids =>
      if ids.length > 1 then
        let (nids, merged) := bpePass st ids
        if merged then bpeLoop st fuel nids else nids
      else ids

/-- Adjacent pairs of the current symbol sequence. -/
def pairsOf (syms : List (List Char)) : List ((List Char) × (List Char)) :=
  syms.zip syms.tail

/-- The best-pair scan of the rank strategy: a fold keeping the first
pair whose rank is strictly below every rank seen so far (min_rank starts
at usize::MAX, modelled by the empty accumulator). -/
def bestScan (st : Tok) :
    List ((List Char) × (List Char)) → Option (((List Char) × (List Char)) × Nat) →
    Option (((List Char) × (List Char)) × Nat)
  | [], acc => acc
  | p :: ps, acc =>
      match lookupR st p, acc with
      | some r, none => bestScan st ps (some (p, r))
      | some r, some (q, m) =>
          if r < m then bestScan st ps (some (p, r)) else bestScan st ps (some (q, m))
      | none, a => bestScan st ps a

/-- One left-to-right pass replacing every non-overlapping occurrence of
the chosen string pair with its concatenation. -/
def replaceAllStr (p : (List Char) × (List Char)) : List (List Char) → List (List Char)
  | x :: y :: rest =>
      if x = p.1 ∧ y = p.2 then (p.1 ++ p.2) :: replaceAllStr p rest
      else x :: replaceAllStr p (y :: rest)
  | l => l

/-- The rank strategy loop over symbol strings: find the eligible
adjacent pair of lowest rank, replace all its occurrences, stop when no
eligible pair remains or one symbol remains.  A merge strictly shortens
the list, so length + 1 units of fuel dominate the iteration count. -/
def rankLoop (st : Tok) : Nat → List (List Char) → List (List Char)
  | 0, syms => syms
  | fuel + 1, syms =>
      if syms = [] then syms
      else if pairsOf syms = [] then syms
      else
        match bestScan st (pairsOf syms) none with
        | none => syms
        | some (p, _) =>
            let ns := replaceAllStr p syms
            if ns.length = 1 then ns else rankLoop st fuel ns

/-- Final string-to-id resolution of the rank strategy. -/
def resolveSyms (st : Tok) : List (List Char) → Except ErrKind (List Nat)
  | [] => .ok []
  | s :: rest =>
      match lookupInv st s with
      | some i => do
          let r ← resolveSyms st rest
          .ok (i :: r)
      | none => .error .invalidData

/-- tokenize_with_bpe: decompose into characters; with an empty rank
table run the id-pair strategy, otherwise map ids to their strings, run
the rank strategy and resolve the resulting strings back to ids. -/
def tokenize_with_bpe (st : Tok) (t : List Char) : Except ErrKind (List Nat) := do
  let ids ← charIds st t
  if st.bpe_ranks = [] then
    .ok (bpeLoop st (ids.length + 1) ids)
  else
    resolveSyms st (rankLoop st ((ids.map (vstr st)).length + 1) (ids.map (vstr st)))

/-- Per-token step of encode_no_special: direct vocabulary hit or BPE. -/
def encTok (st : Tok) (t : List Char) : Except ErrKind (List Nat) :=
  match lookupInv st t with
  | some i => .ok [i]
  | none => tokenize_with_bpe st t

/-- Encode a token string list left to right, concatenating the ids. -/
def encodeTokens (st : Tok) : List (List Char) → Except ErrKind (List Nat)
  | [] => .ok []
  | t :: ts => do
      let a ← encTok st t
      let b ← encodeTokens st ts
      .ok (a ++ b)

/-- encode_no_special: split into lines, then whitespace-split each line
into marker-prefixed word tokens, then encode every token. -/
def encode_no_special (st : Tok) (text : List Char) : Except ErrKind (List Nat) :=
  encodeTokens st (tokensOfLines 0 (splitNl text))

/-- The first allowed alternative matching at the head of the text.  The
Rust side builds one regex alternation over the allowed set (in its
arbitrary HashSet order, here the given list order) and regex alternation
is leftmost-first; an empty alternative never matches a non-trivial span
and is ignored. -/
def firstAlt (allowed : List (List Char)) (t : List Char) : Option (List Char) :=
  allowed.find? (fun s => !s.isEmpty && s.isPrefixOf t)

/-- Leftmost match of any allowed special token: the gap before the
match, the matched token, and the rest of the text after it. -/
def splitFirstHit (allowed : List (List Char)) :
    List Char → Option (List Char × List Char × List Char)
  | [] => none
  | c :: t =>
      match firstAlt allowed (c :: t) with
      | some s => some ([], s, (c :: t).drop s.length)
      | none =>
          (splitFirstHit allowed t).map (fun r => (c :: r.1, r.2.1, r.2.2))

/-- A chunk of the carve-out decomposition: a gap of ordinary text or a
matched special token. -/
inductive Chunk where
  | gap (g : List Char)
  | hit (s : List Char)
deriving DecidableEq, Repr

/-- The find_iter loop of encode: successive leftmost matches with the
text between matches kept as gaps.  Every match consumes at least one
character, so length + 1 units of fuel dominate the match count. -/
def scanChunks (allowed : List (List Char)) : Nat → List Char → List Chunk
  | 0, t => [Chunk.gap t]
  | fuel + 1, t =>
      match splitFirstHit allowed t with
      | none => [Chunk.gap t]
      | some (g, s, r) => Chunk.gap g :: Chunk.hit s :: scanChunks allowed fuel r

/-- Encode the chunk sequence: gaps through encode_no_special, each
matched special through a single vocabulary lookup. -/
def encodeChunks (st : Tok) : List Chunk → Except ErrKind (List Nat)
  | [] => .ok []
  | Chunk.gap g :: rest => do
      let a ← encode_no_special st g
      let b ← encodeChunks st rest
      .ok (a ++ b)
  | Chunk.hit s :: rest =>
      match lookupInv st s with
      | some i => do
          let b ← encodeChunks st rest
          .ok (i :: b)
      | none => .error .invalidData

/-- Substring test modelling Rust str::contains with a literal pattern. -/
def containsSub (pat t : List Char) : Bool :=
  t.tails.any (fun suf => pat.isPrefixOf suf)

/-- The disallowed-special filter of encode: vocabulary strings delimited
by the special-token bracket pair that occur in the text but are not in
the allowed set. -/
def disallowedIn (st : Tok) (allowed : List (List Char)) (text : List Char) :
    List (List Char) :=
  (st.inverse_vocab.map Prod.fst).filter
    (fun k =>
      ['<', '|'].isPrefixOf k && ['|', '>'].isSuffixOf k &&
        !(decide (k ∈ allowed)) && containsSub k text)

/-- encode: with a non-empty allowed set, carve out special-token
matches, encode gaps recursively, then fail if any bracket-delimited
vocabulary literal outside the allowed set occurs in the text; otherwise
encode the whole text with encode_no_special. -/
def encode (st : Tok) (text : List Char) (allowed : Option (List (List Char))) :
    Except ErrKind (List Nat) :=
  match allowed with
  | some al =>
      if al = [] then encode_no_special st text
      else do
        let ids ← encodeChunks st (scanChunks al (text.length + 1) text)
        if disallowedIn st al text = [] then .ok ids else .error .invalidData
  | none => encode_no_special st text

/-! Decoding -/

/-- One decode step: the newline token emits a newline preceded by a
space unless the output is empty or already ends with a space; a
marker-prefixed token emits a space and the rest; anything else is
appended verbatim. -/
def decodeStep (acc : List Char) (s : List Char) : List Char :=
  if s = [nlChar] then
    if acc ≠ [] ∧ acc.getLast? ≠ some spChar then acc ++ [spChar, nlChar]
    else acc ++ [nlChar]
  else
    match s with
    | c :: rest => if c = gMark then acc ++ spChar :: rest else acc ++ c :: rest
    | [] => acc

/-- Left-to-right decode fold with an explicit accumulator. -/
def decodeAux (st : Tok) : List Nat → List Char → Except ErrKind (List Char)
  | [], acc => .ok acc
  | i :: rest, acc =>
      match lookupV st i with
      | some s => decodeAux st rest (decodeStep acc s)
      | none => .error .invalidData

/-- decode: fold the id sequence into text, failing on an unknown id. -/
def decode (st : Tok) (ids : List Nat) : Except ErrKind (List Char) :=
  decodeAux st ids []

/-! Native persistence (load side) -/

/-- Failure of a load operation: an io error kind, or a Rust panic (the
source indexes inverse_vocab with the bracket operator, which panics on a
missing key). -/
inductive LoadFail where
  | ioErr (k : ErrKind)
  | panicked
deriving DecidableEq, Repr

/-- Resolve the native merge records against the freshly loaded inverse
vocabulary: each record holds the two constituent strings and the merged
id, and the source indexes the map directly, so a missing constituent is
a panic, not an error return. -/
def resolveMerges (st : Tok) :
    List ((List Char × List Char) × Nat) → List ((Nat × Nat) × Nat) →
    Except LoadFail (List ((Nat × Nat) × Nat))
  | [], acc => .ok acc
  | (p, newId) :: rest, acc =>
      match lookupInv st p.1, lookupInv st p.2 with
      | some i0, some i1 => resolveMerges st rest (upsert acc (i0, i1) newId)
      | _, _ => .error .panicked

/-- load_vocab_and_merges on already-parsed file contents (JSON framing
elided): replace the vocabulary, invert it for the string side (the map
iteration order is arbitrary in Rust; the model keeps the given order),
then clear and rebuild the merge table by re-resolving the constituent
strings, panicking when a string is absent. -/
def load_vocab_and_merges (st : Tok) (vocabData : List (Nat × List Char))
    (mergesData : List ((List Char × List Char) × Nat)) : Except LoadFail Tok := do
  let st1 : Tok :=
    { st with
      vocab := vocabData
      inverse_vocab := vocabData.map (fun p => (p.2, p.1))
      bpe_merges := [] }
  let merges ← resolveMerges st1 mergesData []
  .ok { st1 with bpe_merges := merges }

/-! Concrete instances used to settle individual claims -/

/-- The end-of-text special token literal used by the repository. -/
def eotTok : List Char := ['<', '|', 'e', 'n', 'd', 'o', 'f', 't', 'e', 'x', 't', '|', '>']

/-- A special token not delimited by the bracket convention. -/
def eosTok : List Char := ['[', 'E', 'O', 'S', ']']

/-- An allowed special literal distinct from every trained token. -/
def alTok : List Char := ['<', '|', 'a', '|', '>']

/-- Tokenizer trained on the corpus ab with target 0: the full ASCII
seed plus the marker, no merges, no specials. -/
def tokC1 : Tok := (train ['a', 'b'] 0 []).toOption.getD newTok

/-- Tokenizer trained on the corpus ab with the special token ab. -/
def tokC3 : Tok := (train ['a', 'b'] 200 [['a', 'b']]).toOption.getD newTok

/-- Tokenizer trained on the corpus ab with target 10, below the seed
size. -/
def tokC4 : Tok := (train ['a', 'b'] 10 []).toOption.getD newTok

/-- Tokenizer trained on the corpus ab with the end-of-text special. -/
def tokC5 : Tok := (train ['a', 'b'] 0 [eotTok]).toOption.getD newTok

/-- Tokenizer trained on the corpus x with the bracket-free special. -/
def tokC6 : Tok := (train ['x'] 0 [eosTok]).toOption.getD newTok

/-- Tokenizer trained on the empty corpus. -/
def tokC7 : Tok := (train [] 200 []).toOption.getD newTok

/-- Claim C1, counterexample.  The text a-newline-b uses a single newline
separator and only characters of the trained vocabulary, yet
decode(encode(text)) inserts a space on each side of the newline, so the
round trip is not the identity: the decoder emits a space before every
newline token that does not follow a space, and the marker-prefixed word
after the newline emits another space. -/
theorem claim_C1_counterexample :
    train ['a', 'b'] 0 [] = .ok tokC1 ∧
    encode tokC1 ['a', nlChar, 'b'] none = .ok [97, 10, 128, 98] ∧
    decode tokC1 [97, 10, 128, 98] = .ok ['a', spChar, nlChar, spChar, 'b'] ∧
    ['a', spChar, nlChar, spChar, 'b'] ≠ ['a', nlChar, 'b'] :=
  ⟨rfl, rfl, rfl, by decide⟩

/-- Claim C2.  On the corpus abc the two adjacent pairs (a,b) and (b,c)
tie at frequency one.  find_freq_pair selects the maximum with
max_by_key over a HashMap iteration, and Rust's HashMap iteration order
is randomized per process: the same frequency table presented in two
orders (both permutations of one another) makes max_by_key select two
different pairs, so the selected pair is decided by arbitrary iteration
order, not by a fixed deterministic rule. -/
theorem claim_C2 :
    textToIds (seedState ['a', 'b', 'c'] []).1 (processText ['a', 'b', 'c']) =
      .ok [97, 98, 99] ∧
    pairCounts (seedState ['a', 'b', 'c'] []).1 [97, 98, 99] =
      [((98, 99), 1), ((97, 98), 1)] ∧
    List.Perm [(((98 : Nat), (99 : Nat)), (1 : Nat)), ((97, 98), 1)]
      [((97, 98), 1), ((98, 99), 1)] ∧
    maxByKeyLast [(((98 : Nat), (99 : Nat)), (1 : Nat)), ((97, 98), 1)] ≠
      maxByKeyLast [((97, 98), 1), ((98, 99), 1)] :=
  ⟨rfl, rfl, by decide, by decide⟩

/-- Claim C3.  Training on the corpus ab with special token ab learns
the merge (a, b) whose concatenation equals the special token already in
the vocabulary; the code inserts it anyway, leaving two distinct ids (129
and 130) mapping to the same string, so the vocabulary bijection is not
preserved by training. -/
theorem claim_C3 :
    train ['a', 'b'] 200 [['a', 'b']] = .ok tokC3 ∧
    lookupV tokC3 129 = some ['a', 'b'] ∧
    lookupV tokC3 130 = some ['a', 'b'] ∧
    (129 : Nat) ≠ 130 ∧
    tokC3.bpe_merges = [((97, 98), 130)] :=
  ⟨rfl, rfl, rfl, by decide, rfl⟩

/-- Claim C4, counterexample.  The seed vocabulary already holds 129
entries (all of ASCII plus the marker), so training on the corpus ab
with target vocabulary size 10 returns a vocabulary of size 129, above
the target. -/
theorem claim_C4_counterexample :
    train ['a', 'b'] 10 [] = .ok tokC4 ∧
    tokC4.vocab.length = 129 ∧
    ¬ tokC4.vocab.length ≤ 10 :=
  ⟨rfl, rfl, by decide⟩

/-- Claim C5, counterexample.  With allowed_special None no carve-out and
no disallowed check run at all: encoding a-endoftext, whose text contains
the trained special token literal, never emits the special token's id 129
as one id; the literal is split into fourteen single-character ids. -/
theorem claim_C5_counterexample :
    containsSub eotTok (['a'] ++ eotTok) = true ∧
    lookupInv tokC5 eotTok = some 129 ∧
    encode tokC5 (['a'] ++ eotTok) none =
      .ok [97, 60, 124, 101, 110, 100, 111, 102, 116, 101, 120, 116, 124, 62] ∧
    (129 : Nat) ∉ [97, 60, 124, 101, 110, 100, 111, 102, 116, 101, 120, 116, 124, 62] :=
  ⟨rfl, rfl, rfl, by decide⟩

/-- Claim C6, counterexample.  The special token EOS in square brackets
is in the tokenizer's special-token set and occurs in the text, the
allowed set is supplied and non-empty and does not contain it, yet
encode succeeds: the disallowed check only inspects vocabulary strings
delimited by the angle-bracket-pipe convention. -/
theorem claim_C6_counterexample :
    tokC6.special_tokens = [eosTok] ∧
    containsSub eosTok eosTok = true ∧
    eosTok ∉ [alTok] ∧
    encode tokC6 eosTok (some [alTok]) = .ok [129] :=
  ⟨rfl, rfl, by decide, rfl⟩

/-- Claim C7, counterexample.  Training on the empty text succeeds: the
token-id list is empty, the merge loop never runs, and train returns Ok
with the seed vocabulary rather than failing with any error condition. -/
theorem claim_C7_counterexample :
    train [] 200 [] = .ok tokC7 :=
  rfl

/-! General lemmas about the map operations, seeding and the training loop -/

theorem bindE_error {ε α β : Type} (e : ε) (f : α → Except ε β) :
    (do let x ← (Except.error e : Except ε α); f x) = .error e := rfl

theorem bindE_ok {ε α β : Type} (a : α) (f : α → Except ε β) :
    (do let x ← (Except.ok a : Except ε α); f x) = f a := rfl

theorem upsert_mem {α β : Type} [DecidableEq α] {m : List (α × β)} {k : α} {v : β}
    {p : α × β} (h : p ∈ upsert m k v) : p = (k, v) ∨ p ∈ m := by
  induction m with
  | nil => simpa [upsert] using h
  | cons q t ih =>
      obtain ⟨k', v'⟩ := q
      simp only [upsert] at h
      by_cases hk : k' = k
      · simp only [if_pos hk, List.mem_cons] at h
        rcases h with h | h
        · exact Or.inl h
        · exact Or.inr (List.mem_cons_of_mem _ h)
      · simp only [if_neg hk, List.mem_cons] at h
        rcases h with h | h
        · exact Or.inr (by simp [h])
        · rcases ih h with h' | h'
          · exact Or.inl h'
          · exact Or.inr (List.mem_cons_of_mem _ h')

theorem upsert_length_fresh {α β : Type} [DecidableEq α] {m : List (α × β)} {k : α}
    {v : β} (h : ∀ p ∈ m, p.1 ≠ k) : (upsert m k v).length = m.length + 1 := by
  induction m with
  | nil => rfl
  | cons q t ih =>
      obtain ⟨k', v'⟩ := q
      have hk : k' ≠ k := h (k', v') (by simp)
      simp only [upsert, if_neg hk, List.length_cons]
      rw [ih (fun p hp => h p (List.mem_cons_of_mem _ hp))]

theorem seedEntries_key_lt : ∀ (l : List Char) (s : Nat) (p : Nat × List Char),
    p ∈ seedEntries s l → p.1 < s + l.length := by
  intro l
  induction l with
  | nil => intro s p h; simp [seedEntries] at h
  | cons c t ih =>
      intro s p h
      simp only [seedEntries, List.mem_cons] at h
      rcases h with h | h
      · subst h; simp
      · have := ih (s + 1) p h
        simpa [Nat.add_comm, Nat.add_left_comm, Nat.add_assoc] using this

theorem foldl_addSpecial_keys : ∀ (l : List (List Char)) (acc : Tok × Nat),
    (∀ p ∈ acc.1.vocab, p.1 < acc.2) →
    ∀ p ∈ (l.foldl addSpecial acc).1.vocab, p.1 < (l.foldl addSpecial acc).2 := by
  intro l
  induction l with
  | nil => intro acc h; simpa using h
  | cons s t ih =>
      intro acc h
      simp only [List.foldl_cons]
      apply ih
      unfold addSpecial
      by_cases hc : lookupInv acc.1 s = none
      · simp only [if_pos hc]
        intro p hp
        rcases List.mem_append.mp hp with hp | hp
        · exact Nat.lt_succ_of_lt (h p hp)
        · simp at hp; subst hp; simp
      · simpa [if_neg hc] using h

theorem foldl_addSpecial_merges : ∀ (l : List (List Char)) (acc : Tok × Nat),
    (l.foldl addSpecial acc).1.bpe_merges = acc.1.bpe_merges := by
  intro l
  induction l with
  | nil => intro acc; rfl
  | cons s t ih =>
      intro acc
      simp only [List.foldl_cons, ih]
      unfold addSpecial
      by_cases hc : lookupInv acc.1 s = none <;> simp [hc]

theorem foldl_addSpecial_ranks : ∀ (l : List (List Char)) (acc : Tok × Nat),
    (l.foldl addSpecial acc).1.bpe_ranks = acc.1.bpe_ranks := by
  intro l
  induction l with
  | nil => intro acc; rfl
  | cons s t ih =>
      intro acc
      simp only [List.foldl_cons, ih]
      unfold addSpecial
      by_cases hc : lookupInv acc.1 s = none <;> simp [hc]

theorem seedState_keys_lt (text : List Char) (specials : List (List Char)) :
    ∀ p ∈ (seedState text specials).1.vocab, p.1 < (seedState text specials).2 := by
  unfold seedState
  apply foldl_addSpecial_keys
  split
  · intro p hp
    rcases List.mem_append.mp hp with hp | hp
    · exact Nat.lt_succ_of_lt (by simpa using seedEntries_key_lt _ 0 p hp)
    · have hps := List.mem_singleton.mp hp
      subst hps
      simp
  · intro p hp
    simpa using seedEntries_key_lt _ 0 p hp

theorem seedState_merges (text : List Char) (specials : List (List Char)) :
    (seedState text specials).1.bpe_merges = [] := by
  unfold seedState
  rw [foldl_addSpecial_merges]
  split <;> rfl

theorem trainLoop_nil (st : Tok) (nextId vs : Nat) :
    ∀ fuel, trainLoop st nextId vs [] fuel = st := by
  intro fuel
  cases fuel <;> simp [trainLoop]

theorem trainLoop_stop (st : Tok) (nextId vs : Nat) (ids : List Nat) (fuel : Nat)
    (h : vs ≤ st.vocab.length) : trainLoop st nextId vs ids fuel = st := by
  cases fuel with
  | zero => rfl
  | succ f =>
      simp only [trainLoop]
      rw [if_neg]
      rintro ⟨h1, _⟩
      exact absurd h (Nat.not_le_of_lt h1)

theorem trainLoop_length : ∀ (fuel : Nat) (st : Tok) (nextId vs : Nat) (ids : List Nat),
    (∀ p ∈ st.vocab, p.1 < nextId) →
    (trainLoop st nextId vs ids fuel).vocab.length ≤ max st.vocab.length vs := by
  intro fuel
  induction fuel with
  | zero => intro st nextId vs ids _; exact Nat.le_max_left _ _
  | succ f ih =>
      intro st nextId vs ids hkeys
      simp only [trainLoop]
      by_cases hg : st.vocab.length < vs ∧ ids ≠ []
      · rw [if_pos hg]
        cases hf : find_freq_pair st ids with
        | none => exact Nat.le_max_left _ _
        | some p =>
            obtain ⟨p0, p1⟩ := p
            have hfresh : ∀ q ∈ st.vocab, q.1 ≠ nextId :=
              fun q hq => Nat.ne_of_lt (hkeys q hq)
            have hlen : (upsert st.vocab nextId (vstr st p0 ++ vstr st p1)).length =
                st.vocab.length + 1 := upsert_length_fresh hfresh
            have hkeys' : ∀ q ∈ upsert st.vocab nextId (vstr st p0 ++ vstr st p1),
                q.1 < nextId + 1 := by
              intro q hq
              rcases upsert_mem hq with h | h
              · subst h; simp
              · exact Nat.lt_succ_of_lt (hkeys q h)
            have := ih
              { st with
                vocab := upsert st.vocab nextId (vstr st p0 ++ vstr st p1)
                inverse_vocab := upsert st.inverse_vocab (vstr st p0 ++ vstr st p1) nextId
                bpe_merges := upsert st.bpe_merges (p0, p1) nextId }
              (nextId + 1) vs (replace_pair ids (p0, p1) nextId) hkeys'
            simp only at this
            calc (trainLoop _ (nextId + 1) vs _ f).vocab.length
                ≤ max (upsert st.vocab nextId (vstr st p0 ++ vstr st p1)).length vs := this
              _ = max (st.vocab.length + 1) vs := by rw [hlen]
              _ = vs := Nat.max_eq_right hg.1
              _ ≤ max st.vocab.length vs := Nat.le_max_right _ _
      · rw [if_neg hg]
        exact Nat.le_max_left _ _

/-- Claim C4, amended.  After train returns, the vocabulary size is at
most the maximum of the seed vocabulary size and the target vocabulary
size (the claimed bound by the target alone holds exactly when the
target is at least the seed size, and fails otherwise, see the
counterexample); and when the target is smaller than the seed vocabulary
size zero merges are performed. -/
theorem claim_C4 (text : List Char) (vs : Nat) (specials : List (List Char)) (st : Tok)
    (h : train text vs specials = .ok st) :
    st.vocab.length ≤ max (seedState text specials).1.vocab.length vs ∧
    (vs < (seedState text specials).1.vocab.length → st.bpe_merges = []) := by
  unfold train at h
  cases htids : textToIds (seedState text specials).1 (processText text) with
  | error e =>
      rw [htids, bindE_error] at h
      exact absurd h (by simp)
  | ok ids =>
      rw [htids, bindE_ok] at h
      simp only [Except.ok.injEq] at h
      subst h
      constructor
      · exact trainLoop_length _ _ _ _ _ (seedState_keys_lt text specials)
      · intro hlt
        rw [trainLoop_stop _ _ _ _ _ (Nat.le_of_lt hlt)]
        exact seedState_merges text specials

/-- Claim C4, witness: the amended statement instantiated at the
training run of the counterexample (corpus ab, target 10, no specials). -/
theorem claim_C4_witness :
    tokC4.vocab.length ≤ max (seedState ['a', 'b'] []).1.vocab.length 10 ∧
    (10 < (seedState ['a', 'b'] []).1.vocab.length → tokC4.bpe_merges = []) :=
  claim_C4 ['a', 'b'] 10 [] tokC4 rfl

/-- Claim C7, amended.  Calling train with an empty text succeeds for
every target size and special-token set: the token-id sequence is empty,
so the merge loop never runs and train returns the seed vocabulary with
zero merges, rather than failing with an InvalidInput condition. -/
theorem claim_C7 : ∀ (n : Nat) (specials : List (List Char)),
    train [] n specials = .ok (seedState [] specials).1 ∧
    (seedState [] specials).1.bpe_merges = [] := by
  intro n specials
  refine ⟨?_, seedState_merges [] specials⟩
  unfold train
  have hp : processText [] = [] := rfl
  rw [hp]
  have ht : textToIds (seedState [] specials).1 [] = .ok [] := rfl
  rw [ht, bindE_ok, trainLoop_nil]

/-! Lemmas about whitespace segmentation -/

theorem splitWSAux_ws_skip : ∀ (g t : List Char), (∀ c ∈ g, isWS c = true) →
    splitWSAux (g ++ t) [] = splitWSAux t [] := by
  intro g
  induction g with
  | nil => intro t _; rfl
  | cons c g' ih =>
      intro t h
      have hc : isWS c = true := h c (by simp)
      simp only [List.cons_append, splitWSAux, hc, if_pos rfl, if_true]
      exact ih t (fun x hx => h x (List.mem_cons_of_mem _ hx))

theorem splitWSAux_word : ∀ (w t acc : List Char), (∀ c ∈ w, isWS c = false) →
    splitWSAux (w ++ t) acc = splitWSAux t (w.reverse ++ acc) := by
  intro w
  induction w with
  | nil => intro t acc _; simp
  | cons c w' ih =>
      intro t acc h
      have hc : isWS c = false := h c (by simp)
      simp only [List.cons_append, splitWSAux, hc, Bool.false_eq_true, if_false,
        List.append_eq]
      rw [ih t (c :: acc) (fun x hx => h x (List.mem_cons_of_mem _ hx))]
      simp

theorem splitWSAux_emit : ∀ (t acc : List Char), acc ≠ [] →
    (t = [] ∨ ∃ c t', t = c :: t' ∧ isWS c = true) →
    splitWSAux t acc = acc.reverse :: splitWSAux t [] := by
  intro t acc hacc h
  rcases h with rfl | ⟨c, t', rfl, hc⟩
  · simp [splitWSAux, hacc]
  · simp [splitWSAux, hc, hacc]

theorem splitWS_single (w : List Char) (hne : w ≠ []) (hw : ∀ c ∈ w, isWS c = false) :
    splitWS w = [w] := by
  unfold splitWS
  have h1 := splitWSAux_word w [] [] hw
  simp only [List.append_nil] at h1
  rw [h1]
  simp [splitWSAux, hne]

theorem splitWS_word_gap (w g t : List Char) (hwne : w ≠ [])
    (hw : ∀ c ∈ w, isWS c = false) (hgne : g ≠ []) (hg : ∀ c ∈ g, isWS c = true) :
    splitWS (w ++ g ++ t) = w :: splitWS t := by
  unfold splitWS
  rw [List.append_assoc, splitWSAux_word w (g ++ t) [] hw]
  rw [List.append_nil]
  obtain ⟨c, g', rfl⟩ := List.exists_cons_of_ne_nil hgne
  rw [splitWSAux_emit (c :: g' ++ t) w.reverse (by simpa using hwne)
      (Or.inr ⟨c, g' ++ t, by simp, hg c (by simp)⟩)]
  rw [List.reverse_reverse]
  have := splitWSAux_ws_skip (c :: g') t hg
  simp only [List.cons_append] at this ⊢
  rw [this]

/-- A chunk of line text: the first word followed by gap-word pairs. -/
def joinWG (w : List Char) : List (List Char × List Char) → List Char
  | [] => w
  | p :: rest => w ++ p.1 ++ joinWG p.2 rest

/-- A word is a nonempty run of non-whitespace characters. -/
def wordOk (w : List Char) : Prop := w ≠ [] ∧ ∀ c ∈ w, isWS c = false

/-- An intra-line gap is a nonempty run of whitespace characters other
than the newline used for line splitting. -/
def gapOk (g : List Char) : Prop := g ≠ [] ∧ ∀ c ∈ g, isWS c = true ∧ c ≠ nlChar

/-- A well-formed line: a first word followed by gap-word pairs. -/
def lineSpecOk (p : List Char × List (List Char × List Char)) : Prop :=
  wordOk p.1 ∧ ∀ q ∈ p.2, gapOk q.1 ∧ wordOk q.2

theorem splitWS_joinWG : ∀ (pairs : List (List Char × List Char)) (w : List Char),
    wordOk w → (∀ q ∈ pairs, gapOk q.1 ∧ wordOk q.2) →
    splitWS (joinWG w pairs) = w :: pairs.map Prod.snd := by
  intro pairs
  induction pairs with
  | nil => intro w hw _; simpa [joinWG] using splitWS_single w hw.1 hw.2
  | cons q rest ih =>
      intro w hw hq
      obtain ⟨⟨hg1, hg2⟩, hw'⟩ := hq q (by simp)
      have hg2' : ∀ c ∈ q.1, isWS c = true := fun c hc => (hg2 c hc).1
      simp only [joinWG]
      rw [splitWS_word_gap w q.1 (joinWG q.2 rest) hw.1 hw.2 hg1 hg2']
      rw [ih q.2 hw' (fun r hr => hq r (List.mem_cons_of_mem _ hr))]
      simp

theorem mem_joinWG : ∀ (pairs : List (List Char × List Char)) (w : List Char)
    (c : Char), c ∈ joinWG w pairs → c ∈ w ∨ ∃ q ∈ pairs, c ∈ q.1 ∨ c ∈ q.2 := by
  intro pairs
  induction pairs with
  | nil => intro w c h; exact Or.inl h
  | cons q rest ih =>
      intro w c h
      simp only [joinWG, List.append_assoc, List.mem_append] at h
      rcases h with h | h | h
      · exact Or.inl h
      · exact Or.inr ⟨q, by simp, Or.inl h⟩
      · rcases ih q.2 c h with h' | ⟨r, hr, h'⟩
        · exact Or.inr ⟨q, by simp, Or.inr h'⟩
        · exact Or.inr ⟨r, List.mem_cons_of_mem _ hr, h'⟩

theorem isWS_nl : isWS nlChar = true := rfl

theorem lineOf_no_nl (p : List Char × List (List Char × List Char))
    (h : lineSpecOk p) : ∀ c ∈ joinWG p.1 p.2, c ≠ nlChar := by
  intro c hc
  rcases mem_joinWG p.2 p.1 c hc with h' | ⟨q, hq, h' | h'⟩
  · intro he
    have := h.1.2 c h'
    rw [he, isWS_nl] at this
    cases this
  · exact ((h.2 q hq).1.2 c h').2
  · intro he
    have := (h.2 q hq).2.2 c h'
    rw [he, isWS_nl] at this
    cases this

/-! Lemmas about newline segmentation -/

theorem splitNl_no_nl : ∀ (t : List Char), (∀ c ∈ t, c ≠ nlChar) → splitNl t = [t] := by
  intro t
  induction t with
  | nil => intro _; rfl
  | cons c t' ih =>
      intro h
      have hc : c ≠ nlChar := h c (by simp)
      simp only [splitNl, if_neg hc]
      rw [ih (fun x hx => h x (List.mem_cons_of_mem _ hx))]

theorem splitNl_append : ∀ (l t : List Char), (∀ c ∈ l, c ≠ nlChar) →
    splitNl (l ++ nlChar :: t) = l :: splitNl t := by
  intro l
  induction l with
  | nil => intro t _; simp [splitNl]
  | cons c l' ih =>
      intro t h
      have hc : c ≠ nlChar := h c (by simp)
      simp only [List.cons_append, splitNl, if_neg hc, List.append_eq]
      rw [ih t (fun x hx => h x (List.mem_cons_of_mem _ hx))]

/-- Lines joined by single newline characters. -/
def joinLines (l : List Char) : List (List Char) → List Char
  | [] => l
  | l' :: rest => l ++ nlChar :: joinLines l' rest

theorem splitNl_joinLines : ∀ (rest : List (List Char)) (l : List Char),
    (∀ c ∈ l, c ≠ nlChar) → (∀ m ∈ rest, ∀ c ∈ m, c ≠ nlChar) →
    splitNl (joinLines l rest) = l :: rest := by
  intro rest
  induction rest with
  | nil => intro l hl _; exact splitNl_no_nl l hl
  | cons l' rest' ih =>
      intro l hl hrest
      simp only [joinLines]
      rw [splitNl_append l _ hl]
      rw [ih l' (hrest l' (by simp)) (fun m hm => hrest m (List.mem_cons_of_mem _ hm))]

/-- A multi-line text: a first line followed by further lines, each line
a first word followed by gap-word pairs. -/
def textOfLines : List (List Char × List (List Char × List Char)) → List Char
  | [] => []
  | p :: rest => joinLines (joinWG p.1 p.2) (rest.map (fun q => joinWG q.1 q.2))

theorem tokensOfLines_mapped : ∀ {L L' : List (List Char × List (List Char × List Char))},
    List.Forall₂ (fun p p' => p.1 = p'.1 ∧ p.2.map Prod.snd = p'.2.map Prod.snd) L L' →
    (∀ p ∈ L, lineSpecOk p) → (∀ p ∈ L', lineSpecOk p) → ∀ i,
    tokensOfLines i (L.map (fun q => joinWG q.1 q.2)) =
      tokensOfLines i (L'.map (fun q => joinWG q.1 q.2)) := by
  intro L L' h
  induction h with
  | nil => intro _ _ i; rfl
  | @cons a b l1 l2 hab htail ih =>
      intro hok hok' i
      simp only [List.map_cons, tokensOfLines]
      rw [splitWS_joinWG a.2 a.1 (hok a (by simp)).1 (hok a (by simp)).2]
      rw [splitWS_joinWG b.2 b.1 (hok' b (by simp)).1 (hok' b (by simp)).2]
      rw [hab.1, hab.2]
      rw [ih (fun p hp => hok p (List.mem_cons_of_mem _ hp))
          (fun p hp => hok' p (List.mem_cons_of_mem _ hp)) (i + 1)]

/-- Claim C10.  Encoding collapses intra-line whitespace runs: two texts
built from the same words per line, with arbitrary nonempty intra-line
whitespace runs between consecutive words (and single newlines between
lines), encode to identical results, so the width of a whitespace run is
not recoverable from the encoding. -/
theorem claim_C10 (st : Tok) (L L' : List (List Char × List (List Char × List Char)))
    (hok : ∀ p ∈ L, lineSpecOk p) (hok' : ∀ p ∈ L', lineSpecOk p)
    (hsame : List.Forall₂ (fun p p' => p.1 = p'.1 ∧ p.2.map Prod.snd = p'.2.map Prod.snd) L L') :
    encode st (textOfLines L) none = encode st (textOfLines L') none := by
  cases hsame with
  | nil => rfl
  | @cons a b l1 l2 hab htail =>
      show encode_no_special st _ = encode_no_special st _
      unfold encode_no_special
      unfold textOfLines
      rw [splitNl_joinLines _ _ (lineOf_no_nl a (hok a (by simp)))
          (by
            intro m hm
            simp only [List.mem_map] at hm
            obtain ⟨q, hq, rfl⟩ := hm
            exact lineOf_no_nl q (hok q (List.mem_cons_of_mem _ hq)))]
      rw [splitNl_joinLines _ _ (lineOf_no_nl b (hok' b (by simp)))
          (by
            intro m hm
            simp only [List.mem_map] at hm
            obtain ⟨q, hq, rfl⟩ := hm
            exact lineOf_no_nl q (hok' q (List.mem_cons_of_mem _ hq)))]
      have := tokensOfLines_mapped (List.Forall₂.cons hab htail) hok hok' 0
      simp only [List.map_cons] at this
      rw [this]

/-- Claim C10, witness: the texts a-space-b and a-double-space-b (one
line, same words, whitespace runs of width one and two) encode
identically for the empty tokenizer. -/
theorem claim_C10_witness :
    encode newTok (textOfLines [(['a'], [([spChar], ['b'])])]) none =
      encode newTok (textOfLines [(['a'], [([spChar, spChar], ['b'])])]) none :=
  claim_C10 newTok [(['a'], [([spChar], ['b'])])] [(['a'], [([spChar, spChar], ['b'])])]
    (by
      intro p hp
      simp only [List.mem_singleton] at hp
      subst hp
      refine ⟨⟨by simp, by decide⟩, ?_⟩
      intro q hq
      simp only [List.mem_singleton] at hq
      subst hq
      exact ⟨⟨by simp, by decide⟩, by simp, by decide⟩)
    (by
      intro p hp
      simp only [List.mem_singleton] at hp
      subst hp
      refine ⟨⟨by simp, by decide⟩, ?_⟩
      intro q hq
      simp only [List.mem_singleton] at hq
      subst hq
      exact ⟨⟨by simp, by decide⟩, by simp, by decide⟩)
    (List.Forall₂.cons (by constructor <;> rfl) List.Forall₂.nil)

/-! Claim C9: the rank merge strategy, stated from the specification's
wording and proved equivalent to the embedded source loop -/

/-- Minimum of a list of naturals. -/
def minR : List Nat → Option Nat
  | [] => none
  | r :: rs =>
      match minR rs with
      | none => some r
      | some m => some (min r m)

/-- The ranks of the eligible adjacent pairs (pairs absent from the rank
list are ineligible). -/
def eligibleRanks (st : Tok) (prs : List ((List Char) × (List Char))) : List Nat :=
  prs.filterMap (lookupR st)

/-- The adjacent pair with the lowest rank, written from the claim's
words: none when no eligible pair exists, otherwise the (first) pair
whose rank is the minimum eligible rank. -/
def bestPairSpec (st : Tok) (prs : List ((List Char) × (List Char))) :
    Option ((List Char) × (List Char)) :=
  match minR (eligibleRanks st prs) with
  | none => none
  | some m => prs.find? (fun p => decide (lookupR st p = some m))

/-- The rank merge loop written from the claim's words: repeat while more
than one symbol remains and an eligible pair exists, each round replacing
all non-overlapping occurrences of the lowest-ranked pair. -/
def rankLoopSpec (st : Tok) : Nat → List (List Char) → List (List Char)
  | 0, syms => syms
  | fuel + 1, syms =>
      if syms.length ≤ 1 then syms
      else
        match bestPairSpec st (pairsOf syms) with
        | none => syms
        | some p => rankLoopSpec st fuel (replaceAllStr p syms)

/-- Rank-table merge application written from the claim's words:
character decomposition, the lowest-rank merge loop over token strings,
then resolution of the resulting strings to ids. -/
def tokenizeRankSpec (st : Tok) (t : List Char) : Except ErrKind (List Nat) := do
  let ids ← charIds st t
  resolveSyms st (rankLoopSpec st ((ids.map (vstr st)).length + 1) (ids.map (vstr st)))

theorem eligibleRanks_cons_none (st : Tok) (p : (List Char) × (List Char))
    (ps : List ((List Char) × (List Char))) (hp : lookupR st p = none) :
    eligibleRanks st (p :: ps) = eligibleRanks st ps := by
  simp [eligibleRanks, List.filterMap_cons, hp]

theorem eligibleRanks_cons_some (st : Tok) (p : (List Char) × (List Char))
    (ps : List ((List Char) × (List Char))) (r : Nat) (hp : lookupR st p = some r) :
    eligibleRanks st (p :: ps) = r :: eligibleRanks st ps := by
  simp [eligibleRanks, List.filterMap_cons, hp]

theorem bestScan_acc (st : Tok) : ∀ (prs : List ((List Char) × (List Char)))
    (q : (List Char) × (List Char)) (m : Nat),
    bestScan st prs (some (q, m)) =
      match minR (eligibleRanks st prs) with
      | none => some (q, m)
      | some r =>
          if r < m then
            (prs.find? (fun p => decide (lookupR st p = some r))).map (fun p => (p, r))
          else some (q, m) := by
  intro prs
  induction prs with
  | nil => intro q m; rfl
  | cons p ps ih =>
      intro q m
      cases hp : lookupR st p with
      | none =>
          simp only [bestScan, hp]
          rw [eligibleRanks_cons_none st p ps hp, ih q m]
          cases hmin : minR (eligibleRanks st ps) with
          | none => rfl
          | some r =>
              simp only []
              by_cases hr : r < m
              · rw [if_pos hr, if_pos hr,
                  List.find?_cons_of_neg _ (by simp [hp])]
              · rw [if_neg hr, if_neg hr]
      | some r0 =>
          simp only [bestScan, hp]
          rw [eligibleRanks_cons_some st p ps r0 hp]
          by_cases hA : r0 < m
          · rw [if_pos hA, ih p r0]
            cases hmin : minR (eligibleRanks st ps) with
            | none =>
                simp only [minR, hmin]
                rw [if_pos hA, List.find?_cons_of_pos _ (by simp [hp])]
                rfl
            | some r' =>
                simp only [minR, hmin]
                by_cases hB : r' < r0
                · rw [if_pos hB]
                  have hmr : min r0 r' = r' := Nat.min_eq_right (Nat.le_of_lt hB)
                  rw [hmr, if_pos (Nat.lt_trans hB hA),
                    List.find?_cons_of_neg _ (by simp [hp]; exact Nat.ne_of_gt hB)]
                · rw [if_neg hB]
                  have hmr : min r0 r' = r0 :=
                    Nat.min_eq_left (Nat.le_of_not_lt hB)
                  rw [hmr, if_pos hA, List.find?_cons_of_pos _ (by simp [hp])]
                  rfl
          · rw [if_neg hA, ih q m]
            have hm0 : m ≤ r0 := Nat.le_of_not_lt hA
            cases hmin : minR (eligibleRanks st ps) with
            | none =>
                simp only [minR, hmin]
                rw [if_neg hA]
            | some r' =>
                simp only [minR, hmin]
                by_cases hC : r' < m
                · rw [if_pos hC]
                  have hB : r' < r0 := Nat.lt_of_lt_of_le hC hm0
                  have hmr : min r0 r' = r' := Nat.min_eq_right (Nat.le_of_lt hB)
                  rw [hmr, if_pos hC,
                    List.find?_cons_of_neg _ (by simp [hp]; exact Nat.ne_of_gt hB)]
                · rw [if_neg hC]
                  have hmr : ¬ min r0 r' < m := by
                    rcases Nat.le_total r0 r' with h1 | h1
                    · rw [Nat.min_eq_left h1]; exact hA
                    · rw [Nat.min_eq_right h1]; exact hC
                  rw [if_neg hmr]

theorem bestScan_none (st : Tok) : ∀ (prs : List ((List Char) × (List Char))),
    bestScan st prs none =
      match minR (eligibleRanks st prs) with
      | none => none
      | some r =>
          (prs.find? (fun p => decide (lookupR st p = some r))).map (fun p => (p, r)) := by
  intro prs
  induction prs with
  | nil => rfl
  | cons p ps ih =>
      cases hp : lookupR st p with
      | none =>
          simp only [bestScan, hp]
          rw [eligibleRanks_cons_none st p ps hp, ih]
          cases hmin : minR (eligibleRanks st ps) with
          | none => rfl
          | some r =>
              simp only []
              rw [List.find?_cons_of_neg _ (by simp [hp])]
      | some r0 =>
          simp only [bestScan, hp]
          rw [eligibleRanks_cons_some st p ps r0 hp, bestScan_acc st ps p r0]
          cases hmin : minR (eligibleRanks st ps) with
          | none =>
              simp only [minR, hmin]
              rw [List.find?_cons_of_pos _ (by simp [hp])]
              rfl
          | some r' =>
              simp only [minR, hmin]
              by_cases hB : r' < r0
              · rw [if_pos hB]
                have hmr : min r0 r' = r' := Nat.min_eq_right (Nat.le_of_lt hB)
                rw [hmr, List.find?_cons_of_neg _ (by simp [hp]; exact Nat.ne_of_gt hB)]
              · rw [if_neg hB]
                have hmr : min r0 r' = r0 := Nat.min_eq_left (Nat.le_of_not_lt hB)
                rw [hmr, List.find?_cons_of_pos _ (by simp [hp])]
                rfl

theorem rankLoopSpec_short (st : Tok) (syms : List (List Char))
    (h : syms.length ≤ 1) : ∀ fuel, rankLoopSpec st fuel syms = syms := by
  intro fuel
  cases fuel with
  | zero => rfl
  | succ f => simp [rankLoopSpec, h]

theorem rankLoop_eq_spec (st : Tok) : ∀ (fuel : Nat) (syms : List (List Char)),
    rankLoop st fuel syms = rankLoopSpec st fuel syms := by
  intro fuel
  induction fuel with
  | zero => intro syms; rfl
  | succ f ih =>
      intro syms
      match syms with
      | [] => rfl
      | [x] => rfl
      | a :: b :: rest =>
          have hlen : ¬ (a :: b :: rest).length ≤ 1 := by simp
          have hne : (a :: b :: rest) ≠ [] := by simp
          have hpne : pairsOf (a :: b :: rest) ≠ [] := by simp [pairsOf]
          simp only [rankLoop, rankLoopSpec, if_neg hne, if_neg hpne, if_neg hlen]
          rw [bestScan_none st]
          unfold bestPairSpec
          cases hmin : minR (eligibleRanks st (pairsOf (a :: b :: rest))) with
          | none => rfl
          | some r =>
              simp only []
              cases hfind : (pairsOf (a :: b :: rest)).find?
                  (fun p => decide (lookupR st p = some r)) with
              | none => rfl
              | some p =>
                  have hmap : Option.map
                      (fun x => (x, r)) (some p) = some (p, r) := rfl
                  rw [hmap]
                  dsimp only
                  by_cases hone : (replaceAllStr p (a :: b :: rest)).length = 1
                  · rw [if_pos hone,
                      rankLoopSpec_short st _ (by simp [hone]) f]
                  · rw [if_neg hone, ih]

/-- Claim C9.  When the rank table is populated, BPE merge application
proceeds exactly as described: repeatedly select the adjacent pair with
the lowest rank among pairs present in the rank list, replace all
non-overlapping occurrences of it in one left-to-right pass, stop when no
eligible pair or one symbol remains, and resolve the resulting strings to
ids; the embedded source routine equals this specification routine. -/
theorem claim_C9 (st : Tok) (t : List Char) (hranks : st.bpe_ranks ≠ []) :
    tokenize_with_bpe st t = tokenizeRankSpec st t := by
  unfold tokenize_with_bpe tokenizeRankSpec
  cases hc : charIds st t with
  | error e => rfl
  | ok ids =>
      rw [bindE_ok, bindE_ok]
      rw [if_neg hranks]
      rw [rankLoop_eq_spec]

/-- A tokenizer with an imported rank table: single-character entries
e, s, t, the merged entry es, and one rank record for the pair (e, s). -/
def tokC9 : Tok :=
  { vocab := [(0, ['e']), (1, ['s']), (2, ['t']), (3, ['e', 's'])]
    inverse_vocab := [(['e'], 0), (['s'], 1), (['t'], 2), (['e', 's'], 3)]
    bpe_merges := []
    bpe_ranks := [((['e'], ['s']), 0)]
    special_tokens := [] }

/-- Claim C9, witness: the equivalence instantiated at a populated rank
table and the segment est, where both routines merge (e, s) first and
return the ids of es and t. -/
theorem claim_C9_witness :
    tokC9.bpe_ranks ≠ [] ∧
    tokenize_with_bpe tokC9 ['e', 's', 't'] = tokenizeRankSpec tokC9 ['e', 's', 't'] ∧
    tokenize_with_bpe tokC9 ['e', 's', 't'] = .ok [3, 2] :=
  ⟨by decide, claim_C9 tokC9 ['e', 's', 't'] (by decide), rfl⟩

/-! Error-kind lemmas: the encoder constructs every error with the
InvalidData kind -/

theorem charIds_error (st : Tok) : ∀ (t : List Char) (e : ErrKind),
    charIds st t = .error e → e = .invalidData := by
  intro t
  induction t with
  | nil => intro e h; simp [charIds] at h
  | cons c t' ih =>
      intro e h
      simp only [charIds] at h
      cases hl : lookupInv st [c] with
      | none =>
          rw [hl] at h
          simpa using h.symm
      | some i =>
          rw [hl] at h
          dsimp only at h
          cases hr : charIds st t' with
          | error e' =>
              rw [hr, bindE_error] at h
              have he : e' = e := by simpa using h
              exact he ▸ ih e' hr
          | ok rest =>
              rw [hr, bindE_ok] at h
              simp at h

theorem resolveSyms_error (st : Tok) : ∀ (syms : List (List Char)) (e : ErrKind),
    resolveSyms st syms = .error e → e = .invalidData := by
  intro syms
  induction syms with
  | nil => intro e h; simp [resolveSyms] at h
  | cons s rest ih =>
      intro e h
      simp only [resolveSyms] at h
      cases hl : lookupInv st s with
      | none =>
          rw [hl] at h
          simpa using h.symm
      | some i =>
          rw [hl] at h
          dsimp only at h
          cases hr : resolveSyms st rest with
          | error e' =>
              rw [hr, bindE_error] at h
              have he : e' = e := by simpa using h
              exact he ▸ ih e' hr
          | ok r =>
              rw [hr, bindE_ok] at h
              simp at h

theorem tokenize_with_bpe_error (st : Tok) (t : List Char) (e : ErrKind)
    (h : tokenize_with_bpe st t = .error e) : e = .invalidData := by
  unfold tokenize_with_bpe at h
  cases hc : charIds st t with
  | error e' =>
      rw [hc, bindE_error] at h
      have he : e' = e := by simpa using h
      exact he ▸ charIds_error st t e' hc
  | ok ids =>
      rw [hc, bindE_ok] at h
      by_cases hr : st.bpe_ranks = []
      · rw [if_pos hr] at h; simp at h
      · rw [if_neg hr] at h
        exact resolveSyms_error st _ e h

theorem encTok_error (st : Tok) (t : List Char) (e : ErrKind)
    (h : encTok st t = .error e) : e = .invalidData := by
  unfold encTok at h
  cases hl : lookupInv st t with
  | some i => rw [hl] at h; simp at h
  | none => rw [hl] at h; exact tokenize_with_bpe_error st t e h

theorem encodeTokens_error (st : Tok) : ∀ (ts : List (List Char)) (e : ErrKind),
    encodeTokens st ts = .error e → e = .invalidData := by
  intro ts
  induction ts with
  | nil => intro e h; simp [encodeTokens] at h
  | cons t rest ih =>
      intro e h
      simp only [encodeTokens] at h
      cases ht : encTok st t with
      | error e' =>
          rw [ht, bindE_error] at h
          have he : e' = e := by simpa using h
          exact he ▸ encTok_error st t e' ht
      | ok a =>
          rw [ht, bindE_ok] at h
          cases hr : encodeTokens st rest with
          | error e' =>
              rw [hr, bindE_error] at h
              have he : e' = e := by simpa using h
              exact he ▸ ih e' hr
          | ok b =>
              rw [hr, bindE_ok] at h
              simp at h

theorem encode_no_special_error (st : Tok) (text : List Char) (e : ErrKind)
    (h : encode_no_special st text = .error e) : e = .invalidData :=
  encodeTokens_error st _ e h

theorem encodeChunks_error (st : Tok) : ∀ (cs : List Chunk) (e : ErrKind),
    encodeChunks st cs = .error e → e = .invalidData := by
  intro cs
  induction cs with
  | nil => intro e h; simp [encodeChunks] at h
  | cons c rest ih =>
      intro e h
      cases c with
      | gap g =>
          simp only [encodeChunks] at h
          cases hg : encode_no_special st g with
          | error e' =>
              rw [hg, bindE_error] at h
              have he : e' = e := by simpa using h
              exact he ▸ encode_no_special_error st g e' hg
          | ok a =>
              rw [hg, bindE_ok] at h
              cases hr : encodeChunks st rest with
              | error e' =>
                  rw [hr, bindE_error] at h
                  have he : e' = e := by simpa using h
                  exact he ▸ ih e' hr
              | ok b =>
                  rw [hr, bindE_ok] at h
                  simp at h
      | hit s =>
          simp only [encodeChunks] at h
          cases hl : lookupInv st s with
          | none =>
              rw [hl] at h
              simpa using h.symm
          | some i =>
              rw [hl] at h
              dsimp only at h
              cases hr : encodeChunks st rest with
              | error e' =>
                  rw [hr, bindE_error] at h
                  have he : e' = e := by simpa using h
                  exact he ▸ ih e' hr
              | ok b =>
                  rw [hr, bindE_ok] at h
                  simp at h

/-- Claim C6, amended.  For every text containing a vocabulary token
delimited by the special-token bracket convention (a string starting
with the angle-bracket-pipe opener and ending with the matching closer)
that is not in the supplied non-empty allowed set, encode fails with an
InvalidData condition (the encoder constructs every failure, including
this one, with the InvalidData kind, not InvalidInput; and the check
covers exactly the bracket-delimited vocabulary strings, not arbitrary
special tokens, see the counterexample). -/
theorem claim_C6 (st : Tok) (allowed : List (List Char)) (text k : List Char)
    (hal : allowed ≠ [])
    (hk : k ∈ st.inverse_vocab.map Prod.fst)
    (hshape1 : ['<', '|'].isPrefixOf k = true)
    (hshape2 : ['|', '>'].isSuffixOf k = true)
    (hnal : k ∉ allowed)
    (hocc : containsSub k text = true) :
    encode st text (some allowed) = .error .invalidData := by
  unfold encode
  dsimp only
  rw [if_neg hal]
  cases hch : encodeChunks st (scanChunks allowed (text.length + 1) text) with
  | error e =>
      rw [bindE_error]
      rw [encodeChunks_error st _ e hch]
  | ok ids =>
      rw [bindE_ok]
      have hmem : k ∈ disallowedIn st allowed text := by
        apply List.mem_filter.mpr
        exact ⟨hk, by simp [hshape1, hshape2, hnal, hocc]⟩
      rw [if_neg (List.ne_nil_of_mem hmem)]

/-- Tokenizer trained on the corpus x with the end-of-text special, used
to witness the amended claim C6. -/
def tokC6b : Tok := (train ['x'] 0 [eotTok]).toOption.getD newTok

/-- Claim C6, witness: the amended statement instantiated at a tokenizer
holding the end-of-text token, a text equal to that token, and an allowed
set not containing it. -/
theorem claim_C6_witness :
    encode tokC6b eotTok (some [alTok]) = .error .invalidData :=
  claim_C6 tokC6b [alTok] eotTok eotTok (by decide) (by decide) (by decide)
    (by decide) (by decide) (by decide)

/-! Claim C5: atomicity of carve-out matches -/

/-- The text covered by a chunk sequence: gaps and matched specials in
order. -/
def chunksText : List Chunk → List Char
  | [] => []
  | Chunk.gap g :: r => g ++ chunksText r
  | Chunk.hit s :: r => s ++ chunksText r

/-- How one chunk of the carve-out decomposition is encoded: a gap goes
through encode_no_special; a matched special is an allowed, nonempty
literal emitted as exactly the one id the vocabulary assigns it. -/
def chunkEncoded (st : Tok) (allowed : List (List Char)) : Chunk → List Nat → Prop
  | Chunk.gap g, piece => encode_no_special st g = .ok piece
  | Chunk.hit s, piece =>
      s ∈ allowed ∧ s ≠ [] ∧ ∃ k, lookupInv st s = some k ∧ piece = [k]

theorem firstAlt_props {allowed : List (List Char)} {t s : List Char}
    (h : firstAlt allowed t = some s) :
    s ∈ allowed ∧ s ≠ [] ∧ s.isPrefixOf t = true := by
  have hmem := List.mem_of_find?_eq_some h
  have hpred := List.find?_some h
  simp only [Bool.and_eq_true, Bool.not_eq_true'] at hpred
  refine ⟨hmem, ?_, hpred.2⟩
  intro he
  rw [he] at hpred
  simp at hpred

theorem splitFirstHit_props {allowed : List (List Char)} : ∀ {t g s r : List Char},
    splitFirstHit allowed t = some (g, s, r) →
    g ++ (s ++ r) = t ∧ s ∈ allowed ∧ s ≠ [] := by
  intro t
  induction t with
  | nil => intro g s r h; simp [splitFirstHit] at h
  | cons c t' ih =>
      intro g s r h
      simp only [splitFirstHit] at h
      cases hfa : firstAlt allowed (c :: t') with
      | some s0 =>
          rw [hfa] at h
          simp only [Option.some.injEq, Prod.mk.injEq] at h
          obtain ⟨hg, hs, hr⟩ := h
          subst hg; subst hs; subst hr
          obtain ⟨hmem, hne, hpre⟩ := firstAlt_props hfa
          obtain ⟨u, hu⟩ := List.isPrefixOf_iff_prefix.mp hpre
          refine ⟨?_, hmem, hne⟩
          rw [← hu, List.drop_left]
          simp
      | none =>
          rw [hfa] at h
          obtain ⟨⟨g', s', r'⟩, hsp, heq⟩ := Option.map_eq_some'.mp h
          simp only [Prod.mk.injEq] at heq
          obtain ⟨hg, hs, hr⟩ := heq
          subst hg; subst hs; subst hr
          obtain ⟨hcat, hmem, hne⟩ := ih hsp
          exact ⟨by rw [← hcat]; rfl, hmem, hne⟩

theorem scanChunks_text (allowed : List (List Char)) : ∀ (fuel : Nat) (t : List Char),
    chunksText (scanChunks allowed fuel t) = t := by
  intro fuel
  induction fuel with
  | zero => intro t; simp [scanChunks, chunksText]
  | succ f ih =>
      intro t
      simp only [scanChunks]
      cases hsf : splitFirstHit allowed t with
      | none => simp [chunksText]
      | some gsr =>
          obtain ⟨g, s, r⟩ := gsr
          simp only [chunksText]
          rw [ih r]
          exact (splitFirstHit_props hsf).1

theorem scanChunks_hits (allowed : List (List Char)) : ∀ (fuel : Nat) (t s : List Char),
    Chunk.hit s ∈ scanChunks allowed fuel t → s ∈ allowed ∧ s ≠ [] := by
  intro fuel
  induction fuel with
  | zero => intro t s h; simp [scanChunks] at h
  | succ f ih =>
      intro t s h
      simp only [scanChunks] at h
      cases hsf : splitFirstHit allowed t with
      | none => rw [hsf] at h; simp at h
      | some gsr =>
          obtain ⟨g, s0, r⟩ := gsr
          rw [hsf] at h
          simp only [List.mem_cons] at h
          rcases h with h | h | h
          · simp at h
          · have hs : s = s0 := by simpa using h
            subst hs
            exact ⟨(splitFirstHit_props hsf).2.1, (splitFirstHit_props hsf).2.2⟩
          · exact ih r s h

theorem encodeChunks_pieces (st : Tok) (allowed : List (List Char)) :
    ∀ (chunks : List Chunk) (ids : List Nat),
    encodeChunks st chunks = .ok ids →
    (∀ s, Chunk.hit s ∈ chunks → s ∈ allowed ∧ s ≠ []) →
    ∃ pieces : List (List Nat), ids = pieces.flatten ∧
      List.Forall₂ (chunkEncoded st allowed) chunks pieces := by
  intro chunks
  induction chunks with
  | nil =>
      intro ids h _
      simp only [encodeChunks, Except.ok.injEq] at h
      subst h
      exact ⟨[], rfl, List.Forall₂.nil⟩
  | cons c rest ih =>
      intro ids h hhits
      cases c with
      | gap g =>
          simp only [encodeChunks] at h
          cases h1 : encode_no_special st g with
          | error e => rw [h1, bindE_error] at h; simp at h
          | ok a =>
              rw [h1, bindE_ok] at h
              cases h2 : encodeChunks st rest with
              | error e => rw [h2, bindE_error] at h; simp at h
              | ok b =>
                  rw [h2, bindE_ok] at h
                  simp only [Except.ok.injEq] at h
                  obtain ⟨pieces, hfl, hfa⟩ := ih b h2
                    (fun s hs => hhits s (List.mem_cons_of_mem _ hs))
                  refine ⟨a :: pieces, ?_, List.Forall₂.cons h1 hfa⟩
                  rw [← h, hfl]
                  simp
      | hit s =>
          simp only [encodeChunks] at h
          cases hl : lookupInv st s with
          | none => rw [hl] at h; simp at h
          | some k =>
              rw [hl] at h
              dsimp only at h
              cases h2 : encodeChunks st rest with
              | error e => rw [h2, bindE_error] at h; simp at h
              | ok b =>
                  rw [h2, bindE_ok] at h
                  simp only [Except.ok.injEq] at h
                  obtain ⟨pieces, hfl, hfa⟩ := ih b h2
                    (fun s' hs' => hhits s' (List.mem_cons_of_mem _ hs'))
                  have hsmem := hhits s (by simp)
                  refine ⟨[k] :: pieces, ?_,
                    List.Forall₂.cons ⟨hsmem.1, hsmem.2, k, hl, rfl⟩ hfa⟩
                  rw [← h, hfl]
                  simp

/-- Claim C5, amended.  When allowed_special is supplied and non-empty,
every occurrence of an allowed special token matched by the left-to-right
scan is emitted as exactly one ID: a successful encode is the
concatenation of one id list per scan chunk, where the chunks reconstruct
the text exactly (so every matched chunk is a genuine occurrence of an
allowed special at its position), every matched special contributes
exactly the single id the vocabulary assigns it, and every gap is encoded
by encode_no_special.  (With allowed_special None or empty no carve-out
happens and a special literal may be split, see the counterexample.) -/
theorem claim_C5 (st : Tok) (allowed : List (List Char)) (text : List Char)
    (ids : List Nat) (hal : allowed ≠ [])
    (h : encode st text (some allowed) = .ok ids) :
    chunksText (scanChunks allowed (text.length + 1) text) = text ∧
    ∃ pieces : List (List Nat), ids = pieces.flatten ∧
      List.Forall₂ (chunkEncoded st allowed)
        (scanChunks allowed (text.length + 1) text) pieces := by
  unfold encode at h
  dsimp only at h
  rw [if_neg hal] at h
  refine ⟨scanChunks_text allowed _ text, ?_⟩
  cases hch : encodeChunks st (scanChunks allowed (text.length + 1) text) with
  | error e => rw [hch, bindE_error] at h; simp at h
  | ok ids' =>
      rw [hch, bindE_ok] at h
      by_cases hd : disallowedIn st allowed text = []
      · rw [if_pos hd] at h
        simp only [Except.ok.injEq] at h
        subst h
        exact encodeChunks_pieces st allowed _ ids' hch
          (fun s hs => scanChunks_hits allowed _ text s hs)
      · rw [if_neg hd] at h
        simp at h

/-- Claim C5, witness: the amended statement instantiated at the
end-of-text-trained tokenizer and a text holding two occurrences of the
allowed special: the scan reconstructs the text and both occurrences are
emitted as the single id 129, between the encodings of a, b and c. -/
theorem claim_C5_witness :
    chunksText (scanChunks [eotTok]
        ((['a'] ++ eotTok ++ ['b'] ++ eotTok ++ ['c']).length + 1)
        (['a'] ++ eotTok ++ ['b'] ++ eotTok ++ ['c'])) =
      ['a'] ++ eotTok ++ ['b'] ++ eotTok ++ ['c'] ∧
    ∃ pieces : List (List Nat), [97, 129, 98, 129, 99] = pieces.flatten ∧
      List.Forall₂ (chunkEncoded tokC5 [eotTok])
        (scanChunks [eotTok]
          ((['a'] ++ eotTok ++ ['b'] ++ eotTok ++ ['c']).length + 1)
          (['a'] ++ eotTok ++ ['b'] ++ eotTok ++ ['c'])) pieces :=
  claim_C5 tokC5 [eotTok] (['a'] ++ eotTok ++ ['b'] ++ eotTok ++ ['c'])
    [97, 129, 98, 129, 99] (by decide) rfl

/-! Claim C1: the round trip on single-line single-space texts -/

/-- Words joined by single spaces. -/
def joinSpace : List (List Char) → List Char
  | [] => []
  | [w] => w
  | w :: ws => w ++ spChar :: joinSpace ws

/-- Concatenation of the tail words, each preceded by one space. -/
def tailJoin : List (List Char) → List Char
  | [] => []
  | w :: ws => spChar :: w ++ tailJoin ws

/-- Concatenation of the vocabulary strings of an id sequence. -/
def concatV (st : Tok) (ids : List Nat) : List Char := (ids.map (vstr st)).flatten

/-- Every id of the sequence has a vocabulary entry. -/
def idsOk (st : Tok) (ids : List Nat) : Prop := ∀ i ∈ ids, (lookupV st i).isSome

/-- A word whose characters the tokenizer can seed: nonempty, free of
whitespace and of the marker, every character present in the vocabulary. -/
def wordHyp (st : Tok) (w : List Char) : Prop :=
  w ≠ [] ∧ ∀ c ∈ w, isWS c = false ∧ c ≠ gMark ∧ (lookupInv st [c]).isSome

theorem alookup_mem {α β : Type} [DecidableEq α] : ∀ {m : List (α × β)} {k : α} {v : β},
    alookup m k = some v → (k, v) ∈ m := by
  intro m
  induction m with
  | nil => intro k v h; simp [alookup] at h
  | cons q t ih =>
      intro k v h
      obtain ⟨k', v'⟩ := q
      simp only [alookup] at h
      by_cases hk : k' = k
      · rw [if_pos hk] at h
        simp only [Option.some.injEq] at h
        subst hk; subst h; simp
      · rw [if_neg hk] at h
        exact List.mem_cons_of_mem _ (ih h)

theorem concatV_nil (st : Tok) : concatV st [] = [] := rfl

theorem concatV_cons (st : Tok) (i : Nat) (ids : List Nat) :
    concatV st (i :: ids) = vstr st i ++ concatV st ids := by
  simp [concatV]

theorem vstr_of_lookup {st : Tok} {i : Nat} {s : List Char}
    (h : lookupV st i = some s) : vstr st i = s := by
  simp [vstr, h]

/-- Inverse-vocabulary coherence: every binding of the string side points
back to its string on the id side. -/
def invCoherent (st : Tok) : Prop :=
  ∀ p ∈ st.inverse_vocab, lookupV st p.2 = some p.1

/-- Merge-table coherence: every recorded merge id carries the
concatenation of the strings of its two constituents. -/
def mergeCoherent (st : Tok) : Prop :=
  ∀ e ∈ st.bpe_merges, lookupV st e.2 = some (vstr st e.1.1 ++ vstr st e.1.2)

instance (st : Tok) : Decidable (invCoherent st) :=
  inferInstanceAs (Decidable (∀ p ∈ st.inverse_vocab, lookupV st p.2 = some p.1))

instance (st : Tok) : Decidable (mergeCoherent st) :=
  inferInstanceAs
    (Decidable (∀ e ∈ st.bpe_merges, lookupV st e.2 = some (vstr st e.1.1 ++ vstr st e.1.2)))

instance (st : Tok) (w : List Char) : Decidable (wordHyp st w) :=
  inferInstanceAs
    (Decidable (w ≠ [] ∧ ∀ c ∈ w, isWS c = false ∧ c ≠ gMark ∧ (lookupInv st [c]).isSome))

theorem lookupInv_coherent {st : Tok} (hinv : invCoherent st) {s : List Char} {i : Nat}
    (h : lookupInv st s = some i) : lookupV st i = some s :=
  hinv (s, i) (alookup_mem h)

theorem charIds_props {st : Tok} (hinv : invCoherent st) : ∀ (t : List Char),
    (∀ c ∈ t, (lookupInv st [c]).isSome) →
    ∃ ids, charIds st t = .ok ids ∧ concatV st ids = t ∧ idsOk st ids := by
  intro t
  induction t with
  | nil => exact fun _ => ⟨[], rfl, rfl, by simp [idsOk]⟩
  | cons c t' ih =>
      intro h
      obtain ⟨i, hi⟩ := Option.isSome_iff_exists.mp (h c (by simp))
      obtain ⟨ids', hok, hcat, hidok⟩ := ih (fun x hx => h x (List.mem_cons_of_mem _ hx))
      have hv : lookupV st i = some [c] := lookupInv_coherent hinv hi
      refine ⟨i :: ids', ?_, ?_, ?_⟩
      · simp only [charIds, hi]
        rw [hok, bindE_ok]
      · rw [concatV_cons, vstr_of_lookup hv, hcat]
        rfl
      · intro j hj
        rcases List.mem_cons.mp hj with rfl | hj'
        · simp [hv]
        · exact hidok j hj'

theorem bpePass_props {st : Tok} (hmerge : mergeCoherent st) : ∀ (n : Nat) (ids : List Nat),
    ids.length ≤ n →
    concatV st (bpePass st ids).1 = concatV st ids ∧
      (idsOk st ids → idsOk st (bpePass st ids).1) := by
  intro n
  induction n with
  | zero =>
      intro ids h
      have : ids = [] := List.length_eq_zero.mp (Nat.le_zero.mp h)
      subst this
      exact ⟨rfl, fun h' => h'⟩
  | succ n ih =>
      intro ids hlen
      match ids with
      | [] => exact ⟨rfl, fun h' => h'⟩
      | [a] => exact ⟨rfl, fun h' => h'⟩
      | a :: b :: rest =>
          cases hm : lookupM st (a, b) with
          | some m =>
              have hcoh := hmerge ((a, b), m) (alookup_mem hm)
              have hrest := ih rest (by
                have := hlen
                simp only [List.length_cons] at this
                omega)
              constructor
              · simp only [bpePass, hm]
                rw [concatV_cons, concatV_cons, concatV_cons,
                  vstr_of_lookup hcoh, hrest.1]
                simp
              · intro hids
                simp only [bpePass, hm]
                intro j hj
                rcases List.mem_cons.mp hj with rfl | hj'
                · simp [hcoh]
                · exact hrest.2 (fun x hx =>
                    hids x (List.mem_cons_of_mem _ (List.mem_cons_of_mem _ hx))) j hj'
          | none =>
              have htail := ih (b :: rest) (by
                simp only [List.length_cons] at hlen ⊢
                omega)
              constructor
              · simp only [bpePass, hm]
                rw [concatV_cons, concatV_cons, htail.1]
              · intro hids
                simp only [bpePass, hm]
                intro j hj
                rcases List.mem_cons.mp hj with rfl | hj'
                · exact hids j (by simp)
                · exact htail.2 (fun x hx => hids x (List.mem_cons_of_mem _ hx)) j hj'

theorem bpeLoop_props {st : Tok} (hmerge : mergeCoherent st) : ∀ (fuel : Nat)
    (ids : List Nat),
    concatV st (bpeLoop st fuel ids) = concatV st ids ∧
      (idsOk st ids → idsOk st (bpeLoop st fuel ids)) := by
  intro fuel
  induction fuel with
  | zero => intro ids; exact ⟨rfl, fun h => h⟩
  | succ f ih =>
      intro ids
      simp only [bpeLoop]
      by_cases hlen : ids.length > 1
      · rw [if_pos hlen]
        have hpass := bpePass_props hmerge ids.length ids (Nat.le_refl _)
        by_cases hmerged : (bpePass st ids).2 = true
        · rw [hmerged]
          simp only [if_pos rfl]
          have hrec := ih (bpePass st ids).1
          exact ⟨hrec.1.trans hpass.1, fun h => hrec.2 (hpass.2 h)⟩
        · have hmf : (bpePass st ids).2 = false := Bool.eq_false_iff.mpr hmerged
          rw [hmf]
          simp only [Bool.false_eq_true, if_false]
          exact hpass
      · rw [if_neg hlen]
        exact ⟨rfl, fun h => h⟩

theorem tokenize_props {st : Tok} (hinv : invCoherent st) (hmerge : mergeCoherent st)
    (hranks : st.bpe_ranks = []) (t : List Char)
    (hchars : ∀ c ∈ t, (lookupInv st [c]).isSome) :
    ∃ ids, tokenize_with_bpe st t = .ok ids ∧ concatV st ids = t ∧ idsOk st ids := by
  obtain ⟨ids0, hok, hcat, hidok⟩ := charIds_props hinv t hchars
  have hloop := bpeLoop_props hmerge (ids0.length + 1) ids0
  refine ⟨bpeLoop st (ids0.length + 1) ids0, ?_, hloop.1.trans hcat, hloop.2 hidok⟩
  unfold tokenize_with_bpe
  rw [hok, bindE_ok, if_pos hranks]

theorem encTok_props {st : Tok} (hinv : invCoherent st) (hmerge : mergeCoherent st)
    (hranks : st.bpe_ranks = []) (t : List Char)
    (hchars : ∀ c ∈ t, (lookupInv st [c]).isSome) :
    ∃ ids, encTok st t = .ok ids ∧ concatV st ids = t ∧ idsOk st ids := by
  cases hl : lookupInv st t with
  | some i =>
      have hv : lookupV st i = some t := lookupInv_coherent hinv hl
      refine ⟨[i], ?_, ?_, ?_⟩
      · simp [encTok, hl]
      · rw [concatV_cons, vstr_of_lookup hv, concatV_nil]
        simp
      · intro j hj
        rcases List.mem_cons.mp hj with rfl | hj'
        · simp [hv]
        · simp at hj'
  | none =>
      obtain ⟨ids, hok, hcat, hidok⟩ := tokenize_props hinv hmerge hranks t hchars
      exact ⟨ids, by simp [encTok, hl, hok], hcat, hidok⟩

theorem decodeAux_verbatim (st : Tok) : ∀ (ids rest : List Nat) (acc w : List Char),
    idsOk st ids → concatV st ids = w → gMark ∉ w → nlChar ∉ w →
    decodeAux st (ids ++ rest) acc = decodeAux st rest (acc ++ w) := by
  intro ids
  induction ids with
  | nil =>
      intro rest acc w _ hcat _ _
      rw [← hcat]
      simp [concatV]
  | cons i ids' ih =>
      intro rest acc w hids hcat hG hN
      obtain ⟨s, hs⟩ := Option.isSome_iff_exists.mp (hids i (by simp))
      have hvs : vstr st i = s := vstr_of_lookup hs
      rw [concatV_cons, hvs] at hcat
      have hpre : ∀ c ∈ s, c ∈ w := by
        intro c hc
        rw [← hcat]
        exact List.mem_append.mpr (Or.inl hc)
      have hstep : decodeStep acc s = acc ++ s := by
        unfold decodeStep
        rw [if_neg ?_]
        · cases s with
          | nil => simp
          | cons c s' =>
              dsimp only
              rw [if_neg ?_]
              intro hce
              exact hG (hce ▸ hpre c (by simp))
        · intro hse
          apply hN
          apply hpre
          rw [hse]
          simp
      simp only [List.cons_append, decodeAux, hs, hstep, List.append_eq]
      rw [ih rest (acc ++ s) (concatV st ids') (fun j hj => hids j (List.mem_cons_of_mem _ hj))
        rfl
        (fun hg => hG (by rw [← hcat]; exact List.mem_append.mpr (Or.inr hg)))
        (fun hn => hN (by rw [← hcat]; exact List.mem_append.mpr (Or.inr hn)))]
      rw [List.append_assoc, hcat]

theorem decodeAux_marked (st : Tok) : ∀ (ids : List Nat) (rest : List Nat)
    (acc w : List Char),
    idsOk st ids → concatV st ids = gMark :: w → gMark ∉ w → nlChar ∉ w →
    decodeAux st (ids ++ rest) acc = decodeAux st rest (acc ++ spChar :: w) := by
  intro ids
  induction ids with
  | nil =>
      intro rest acc w _ hcat _ _
      simp [concatV] at hcat
  | cons i ids' ih =>
      intro rest acc w hids hcat hG hN
      obtain ⟨s, hs⟩ := Option.isSome_iff_exists.mp (hids i (by simp))
      have hvs : vstr st i = s := vstr_of_lookup hs
      rw [concatV_cons, hvs] at hcat
      cases s with
      | nil =>
          simp only [List.nil_append] at hcat
          simp only [List.cons_append, decodeAux, hs, List.append_eq]
          have hstep : decodeStep acc [] = acc := by
            unfold decodeStep
            rw [if_neg (by simp)]
          rw [hstep]
          exact ih rest acc w (fun j hj => hids j (List.mem_cons_of_mem _ hj)) hcat hG hN
      | cons c s' =>
          have hc : c = gMark := by
            have := congrArg (fun l => l.head?) hcat
            simpa using this
          subst hc
          have hcat' : s' ++ concatV st ids' = w := by
            have := congrArg (fun l => l.tail) hcat
            simpa using this
          have hstep : decodeStep acc (gMark :: s') = acc ++ spChar :: s' := by
            unfold decodeStep
            rw [if_neg ?_]
            · dsimp only
              rw [if_pos rfl]
            · intro hse
              have : gMark = nlChar := by
                have := congrArg (fun l => l.head?) hse
                simpa using this
              exact absurd this (by decide)
          simp only [List.cons_append, decodeAux, hs, hstep, List.append_eq]
          rw [decodeAux_verbatim st ids' rest (acc ++ spChar :: s') (concatV st ids')
            (fun j hj => hids j (List.mem_cons_of_mem _ hj)) rfl
            (fun hg => hG (by rw [← hcat']; exact List.mem_append.mpr (Or.inr hg)))
            (fun hn => hN (by rw [← hcat']; exact List.mem_append.mpr (Or.inr hn)))]
          rw [List.append_assoc]
          have : spChar :: s' ++ concatV st ids' = spChar :: w := by
            rw [← hcat']
            simp
          rw [this]

theorem joinSpace_cons_eq : ∀ (ws : List (List Char)) (w : List Char),
    joinSpace (w :: ws) = w ++ tailJoin ws := by
  intro ws
  induction ws with
  | nil => intro w; simp [joinSpace, tailJoin]
  | cons v rest ih =>
      intro w
      show w ++ spChar :: joinSpace (v :: rest) = _
      rw [ih v]
      simp [tailJoin]

theorem joinSpace_eq_joinWG : ∀ (ws : List (List Char)) (w : List Char),
    joinSpace (w :: ws) = joinWG w (ws.map (fun v => ([spChar], v))) := by
  intro ws
  induction ws with
  | nil => intro w; rfl
  | cons v rest ih =>
      intro w
      show w ++ spChar :: joinSpace (v :: rest) = _
      simp only [List.map_cons, joinWG]
      rw [← ih v]
      simp

theorem mem_joinSpace : ∀ (ws : List (List Char)) (c : Char), c ∈ joinSpace ws →
    (∃ w ∈ ws, c ∈ w) ∨ c = spChar := by
  intro ws
  induction ws with
  | nil => intro c h; simp [joinSpace] at h
  | cons w rest ih =>
      intro c h
      cases rest with
      | nil =>
          exact Or.inl ⟨w, by simp, h⟩
      | cons v rest' =>
          have h' : c ∈ w ++ spChar :: joinSpace (v :: rest') := h
          rcases List.mem_append.mp h' with h1 | h1
          · exact Or.inl ⟨w, by simp, h1⟩
          · rcases List.mem_cons.mp h1 with rfl | h2
            · exact Or.inr rfl
            · rcases ih c h2 with ⟨u, hu, hcu⟩ | hsp
              · exact Or.inl ⟨u, List.mem_cons_of_mem _ hu, hcu⟩
              · exact Or.inr hsp

theorem encTail {st : Tok} (hinv : invCoherent st) (hmerge : mergeCoherent st)
    (hranks : st.bpe_ranks = []) (hG : (lookupInv st [gMark]).isSome) :
    ∀ (ws : List (List Char)), (∀ w ∈ ws, wordHyp st w) →
    ∃ ids, encodeTokens st (ws.map (fun v => gMark :: v)) = .ok ids ∧
      ∀ (rest : List Nat) (acc : List Char),
        decodeAux st (ids ++ rest) acc = decodeAux st rest (acc ++ tailJoin ws) := by
  intro ws
  induction ws with
  | nil =>
      intro _
      exact ⟨[], rfl, by intro rest acc; simp [tailJoin]⟩
  | cons v ws' ih =>
      intro hws
      have hv := hws v (by simp)
      have hchars : ∀ c ∈ gMark :: v, (lookupInv st [c]).isSome := by
        intro c hc
        rcases List.mem_cons.mp hc with rfl | hc'
        · exact hG
        · exact ((hv.2 c hc').2).2
      obtain ⟨idsv, hokv, hcatv, hidokv⟩ := encTok_props hinv hmerge hranks (gMark :: v) hchars
      obtain ⟨idst, hokt, hdect⟩ := ih (fun w hw => hws w (List.mem_cons_of_mem _ hw))
      have hGv : gMark ∉ v := fun hg => absurd rfl ((hv.2 gMark hg).2).1
      have hNv : nlChar ∉ v := by
        intro hn
        have := (hv.2 nlChar hn).1
        rw [isWS_nl] at this
        cases this
      refine ⟨idsv ++ idst, ?_, ?_⟩
      · simp only [List.map_cons, encodeTokens]
        rw [hokv, bindE_ok, hokt, bindE_ok]
      · intro rest acc
        rw [List.append_assoc]
        rw [decodeAux_marked st idsv (idst ++ rest) acc v hidokv hcatv hGv hNv]
        rw [hdect rest (acc ++ spChar :: v)]
        rw [List.append_assoc]
        rfl

/-- Claim C1, amended.  For every tokenizer whose inverse vocabulary and
merge table are coherent with the vocabulary (as train produces), with no
imported rank table and the marker present, and every single-line text
that is a sequence of words separated by single spaces — each word
nonempty, free of whitespace and of the marker, with every character in
the vocabulary — decoding the result of encoding the text yields the
original text exactly.  (Texts with newline separators do not round-trip,
see the counterexample.) -/
theorem claim_C1 (st : Tok) (ws : List (List Char)) (hinv : invCoherent st)
    (hmerge : mergeCoherent st) (hranks : st.bpe_ranks = [])
    (hG : (lookupInv st [gMark]).isSome) (hws : ∀ w ∈ ws, wordHyp st w) :
    ∃ ids, encode st (joinSpace ws) none = .ok ids ∧
      decode st ids = .ok (joinSpace ws) := by
  cases ws with
  | nil => exact ⟨[], rfl, rfl⟩
  | cons w ws' =>
      have hw := hws w (by simp)
      have hwOk : wordOk w := ⟨hw.1, fun c hc => (hw.2 c hc).1⟩
      have hnonl : ∀ c ∈ joinSpace (w :: ws'), c ≠ nlChar := by
        intro c hc he
        rcases mem_joinSpace (w :: ws') c hc with ⟨u, hu, hcu⟩ | hsp
        · have := ((hws u hu).2 c hcu).1
          rw [he, isWS_nl] at this
          cases this
        · rw [hsp] at he
          exact absurd he (by decide)
      have hsplit : splitWS (joinSpace (w :: ws')) = w :: ws' := by
        rw [joinSpace_eq_joinWG ws' w]
        rw [splitWS_joinWG (ws'.map (fun v => ([spChar], v))) w hwOk ?_]
        · simp
        · intro q hq
          simp only [List.mem_map] at hq
          obtain ⟨v, hv, rfl⟩ := hq
          have hv' := hws v (List.mem_cons_of_mem _ hv)
          exact ⟨⟨by simp, by intro c hc; simp at hc; subst hc; exact ⟨rfl, by decide⟩⟩,
            hv'.1, fun c hc => (hv'.2 c hc).1⟩
      have htoks : tokensOfLines 0 (splitNl (joinSpace (w :: ws'))) =
          w :: ws'.map (fun v => gMark :: v) := by
        rw [splitNl_no_nl _ hnonl]
        simp only [tokensOfLines, hsplit, lineTokens]
        simp
      obtain ⟨ids0, hok0, hcat0, hidok0⟩ := encTok_props hinv hmerge hranks w
        (fun c hc => ((hw.2 c hc).2).2)
      obtain ⟨idst, hokt, hdect⟩ := encTail hinv hmerge hranks hG ws'
        (fun v hv => hws v (List.mem_cons_of_mem _ hv))
      have hGw : gMark ∉ w := fun hg => absurd rfl ((hw.2 gMark hg).2).1
      have hNw : nlChar ∉ w := by
        intro hn
        have := (hw.2 nlChar hn).1
        rw [isWS_nl] at this
        cases this
      refine ⟨ids0 ++ idst, ?_, ?_⟩
      · show encode_no_special st _ = _
        unfold encode_no_special
        rw [htoks]
        simp only [encodeTokens]
        rw [hok0, bindE_ok, hokt, bindE_ok]
      · unfold decode
        rw [decodeAux_verbatim st ids0 idst [] w hidok0 hcat0 hGw hNw]
        have := hdect [] ([] ++ w)
        rw [List.append_nil] at this
        rw [this]
        simp only [List.nil_append, decodeAux]
        rw [joinSpace_cons_eq]

/-- A minimal coherent tokenizer holding the characters a, b and the
marker, used to witness the amended claim C1. -/
def tokC1w : Tok :=
  { vocab := [(0, ['a']), (1, ['b']), (2, [gMark])]
    inverse_vocab := [(['a'], 0), (['b'], 1), ([gMark], 2)]
    bpe_merges := []
    bpe_ranks := []
    special_tokens := [] }

/-- Claim C1, witness: the amended round trip instantiated at the text
a-space-b over a small coherent vocabulary. -/
theorem claim_C1_witness :
    ∃ ids, encode tokC1w (joinSpace [['a'], ['b']]) none = .ok ids ∧
      decode tokC1w ids = .ok (joinSpace [['a'], ['b']]) :=
  claim_C1 tokC1w [['a'], ['b']] (by decide) (by decide) rfl (by decide) (by decide)

/-- Claim C8.  Loading a native vocabulary containing only the string a
together with a merge record referencing the absent constituent string x
panics (the source indexes inverse_vocab with the bracket operator)
instead of returning an InvalidData failure. -/
theorem claim_C8 :
    load_vocab_and_merges newTok [(0, ['a'])] [((['x'], ['y']), 5)] =
      .error .panicked :=
  rfl

end BPE
